import Mathlib

/-!
# Verification of the LiveMeetingNote-Web timestamp-anchor core

Shallow embedding of the anchor-tracking logic of
`src/components/NotesEditor.tsx` (three editing-surface variants: the
line-indexed textarea editor, called variant A below; the Quill
offset-indexed editor, variant B; the offset-indexed textarea editor,
variant C) and of `src/services/wordExporter.ts`.

Documents are JavaScript strings split on `'\n'`; timestamp maps are
JavaScript `Map` objects, modelled as insertion-ordered association lists.
-/

namespace LiveMeetingNote

/-- The set of characters treated as whitespace by JavaScript's
`String.prototype.trim` and by the regex class `\s`
(both cover WhiteSpace plus LineTerminator). -/
def isJsSpace (c : Char) : Bool :=
  c = ' ' || c = '\t' || c = '\n' || c.val = 0x0b || c.val = 0x0c || c = '\r' ||
  c.val = 0xA0 || c.val = 0x1680 || (0x2000 ≤ c.val && c.val ≤ 0x200A) ||
  c.val = 0x2028 || c.val = 0x2029 || c.val = 0x202F || c.val = 0x205F ||
  c.val = 0x3000 || c.val = 0xFEFF

/-- JavaScript `s.trim()`: strip leading and trailing whitespace. -/
def jsTrim (s : String) : String :=
  String.mk (((s.data.dropWhile isJsSpace).reverse.dropWhile isJsSpace).reverse)

/-- JavaScript `notes.split('\n')` (`''.split('\n')` is `['']`;
a trailing newline yields a trailing empty line). -/
def splitLines (s : String) : List String :=
  go s.data []
where
  go : List Char → List Char → List String
    | [], acc => [String.mk acc.reverse]
    | c :: rest, acc =>
      if c = '\n' then String.mk acc.reverse :: go rest []
      else go rest (c :: acc)

/-- JavaScript `lines.join('\n')`. -/
def joinLines (l : List String) : String :=
  String.intercalate "\n" l

/-- JavaScript `s.substring(0, n)` (clamping, code-unit based; the
documents in question are plain text, one `Char` per unit). -/
def strTake (s : String) (n : Nat) : String :=
  String.mk (s.data.take n)

/-- JavaScript `s.substring(n)` (clamping). -/
def strDrop (s : String) (n : Nat) : String :=
  String.mk (s.data.drop n)

/-- JavaScript `arr.splice(i, 1)`: remove the element at `i` if present
(`splice` with a start at or past the end removes nothing). -/
def removeAt (l : List String) (i : Nat) : List String :=
  l.take i ++ l.drop (i + 1)

/-- JavaScript `arr.splice(i, 0, v)`: insert `v` at `i`
(clamped to the end of the array). -/
def insertAt (l : List String) (i : Nat) (v : String) : List String :=
  l.take i ++ [v] ++ l.drop i

/-- JavaScript `lines[i] = v`: in-place update; an index past the end
extends the array, with the holes reading back as empty strings when the
array is later joined. -/
def setLinePadded (l : List String) (i : Nat) (v : String) : List String :=
  if i < l.length then l.set i v
  else l ++ List.replicate (i - l.length) "" ++ [v]

/-! ## Timestamp maps

A JavaScript `Map<number, number>` keyed by line index (variant A) or by
character offset (variants B and C).  Modelled as an association list in
insertion order; `Map.set` overwrites in place when the key is present and
appends otherwise, and `Map.forEach` visits entries in insertion order. -/

/-- A JavaScript `Map<number, number>`: keys are line indices or character
offsets, values are elapsed times in milliseconds. -/
abbrev TSMap := List (Nat × Int)

/-- `map.has(k)`. -/
def mapHas (m : TSMap) (k : Nat) : Bool :=
  m.any (fun p => p.1 == k)

/-- `map.get(k)` (`none` models `undefined`). -/
def mapGet (m : TSMap) (k : Nat) : Option Int :=
  (m.find? (fun p => p.1 == k)).map Prod.snd

/-- `map.set(k, v)`: overwrite in place if present, append otherwise. -/
def mapSet (m : TSMap) (k : Nat) (v : Int) : TSMap :=
  if mapHas m k then m.map (fun p => if p.1 == k then (k, v) else p)
  else m ++ [(k, v)]

/-- `map.delete(k)`. -/
def mapDelete (m : TSMap) (k : Nat) : TSMap :=
  m.filter (fun p => p.1 != k)

/-- The keys of the map are pairwise distinct — an invariant of every
JavaScript `Map`. -/
def keysNodup (m : TSMap) : Prop :=
  (m.map Prod.fst).Nodup

instance (m : TSMap) : Decidable (keysNodup m) := by
  unfold keysNodup; infer_instance

/-! ## PositionTranslator (variant A)

Variant A keeps its canonical index in line space and converts to and from
the parent's offset-space map. -/

/-- The line-start offset used everywhere in the source:
`lines.slice(0, index).join('\n').length + (index > 0 ? 1 : 0)`. -/
def lineStartPos (lines : List String) (index : Nat) : Nat :=
  (joinLines (lines.take index)).length + (if 0 < index then 1 else 0)

/-- Line-space → offset-space translation, the body of
`syncToParentTimestampMap` (variant A, lines 111–118). -/
def lineToOffset (lines : List String) (index : Nat) : Nat :=
  lineStartPos lines index

/-- Offset-space → line-space translation, the scan in the
`timestampMap → lineTimestamps` sync effect (variant A, lines 30–47):
walk the lines keeping `currentPos`; the first line with
`currentPos ≤ position ≤ lineEnd + 1` wins (`break`); no match means the
entry is dropped. -/
def offsetToLine (lines : List String) (position : Nat) : Option Nat :=
  go lines 0 0
where
  go : List String → Nat → Nat → Option Nat
    | [], _, _ => none
    | line :: rest, i, currentPos =>
      let lineEnd := currentPos + line.length
      if currentPos ≤ position ∧ position ≤ lineEnd + 1 then some i
      else go rest (i + 1) (lineEnd + 1)

/-- C1: the offset-space anchor of line 1 of `["a", "b"]` is 2, and
translating offset 2 back to line space lands on line 0, not line 1: the
scan accepts `position ≤ lineEnd + 1`, so the start of a line is claimed
by the previous line and the round-trip law fails for every index ≥ 1. -/
theorem offsetToLine_lineToOffset_not_roundtrip :
    lineToOffset ["a", "b"] 1 = 2 ∧
    offsetToLine ["a", "b"] (lineToOffset ["a", "b"] 1) = some 0 ∧
    some 0 ≠ some 1 := by
  refine ⟨by decide, by decide, by decide⟩

/-! ## RecordingClock -/

/-- `TIME_OFFSET_MS`: fixed compensation for listening-and-typing lag. -/
def TIME_OFFSET_MS : Nat := 2000

/-- `Math.max(0, (Date.now() - recordingStartTime.current) - TIME_OFFSET_MS)`
(all three variants compute the stored time this way). -/
def adjustedDuration (now start : Nat) : Int :=
  max 0 ((now : Int) - (start : Int) - (TIME_OFFSET_MS : Int))

/-! ## TimestampIndex renumbering (variant A)

Each structural edit rebuilds `lineTimestamps` with a
`lineTimestamps.forEach(... newLineTimestamps.set ...)` loop over a fresh
map; the loops are embedded as `foldl` over the association list. -/

/-- The `forEach` loop of the Enter branch (variant A, lines 137–144):
`lineIndex < index + 1` keeps the key, otherwise the key shifts up. -/
def renumberInsert (m : TSMap) (index : Nat) : TSMap :=
  m.foldl
    (fun acc p =>
      if p.1 < index + 1 then mapSet acc p.1 p.2
      else mapSet acc (p.1 + 1) p.2) []

/-- The `forEach` loop shared by the delete-on-empty branch
(variant A, lines 75–82) and the Backspace merge branch (lines 168–175):
keys below `index` are kept, keys above shift down, the key equal to
`index` is dropped. -/
def renumberRemove (m : TSMap) (index : Nat) : TSMap :=
  m.foldl
    (fun acc p =>
      if p.1 < index then mapSet acc p.1 p.2
      else if index < p.1 then mapSet acc (p.1 - 1) p.2
      else acc) []

/-! ## Variant A handlers -/

/-- `handleLineChange` of variant A (lines 66–108).  Returns `none` when
the JavaScript code would throw: with the line index out of range,
`lines[index]` is `undefined`, and while recording the guard
`oldLine.trim().length === 0` dereferences it (TypeError).  Otherwise it
returns the new joined document and the new line-indexed timestamp map. -/
def handleLineChangeA (isRecording : Bool) (now start : Nat)
    (notes : String) (ts : TSMap) (index : Nat) (value : String) :
    Option (String × TSMap) :=
  let lines := splitLines notes
  if value = "" ∧ 1 < lines.length then
    -- delete the emptied line, renumber, and report both stores
    let lines' := removeAt lines index
    some (joinLines lines', renumberRemove ts index)
  else
    let lines' := setLinePadded lines index value
    if isRecording then
      match lines.get? index with
      | none => none
      | some oldLine =>
        if jsTrim oldLine = "" ∧ jsTrim value ≠ "" then
          if mapHas ts index then some (joinLines lines', ts)
          else some (joinLines lines', mapSet ts index (adjustedDuration now start))
        else some (joinLines lines', ts)
    else some (joinLines lines', ts)

/-- The key presses the variant A `handleKeyDown` inspects. -/
inductive EditorKey where
  | enter
  | backspace
  | other
deriving DecidableEq

/-- `handleKeyDown` of variant A (lines 120–190).  The Enter branch splits
the line at the cursor and shifts the timestamps up; with the index out of
range `currentLine.substring` throws (`none`).  The Backspace branch fires
only with the cursor at offset 0 on a line other than the first; it merges
the line into the previous one and renumbers (JavaScript concatenation
with a missing line reads `undefined`, hence the literal `"undefined"`
fallback).  Any other key leaves the model state unchanged. -/
def handleKeyDownA (notes : String) (ts : TSMap) (index cursor : Nat)
    (key : EditorKey) : Option (String × TSMap) :=
  let lines := splitLines notes
  match key with
  | .enter =>
    match lines.get? index with
    | none => none
    | some currentLine =>
      let beforeCursor := strTake currentLine cursor
      let afterCursor := strDrop currentLine cursor
      let lines' := insertAt (lines.set index beforeCursor) (index + 1) afterCursor
      some (joinLines lines', renumberInsert ts index)
  | .backspace =>
    if cursor = 0 ∧ 0 < index then
      let currentLine := (lines.get? index).getD "undefined"
      let prevLine := (lines.get? (index - 1)).getD "undefined"
      let lines' := removeAt (setLinePadded lines (index - 1) (prevLine ++ currentLine)) index
      some (joinLines lines', renumberRemove ts index)
    else some (notes, ts)
  | .other => some (notes, ts)

/-! ## Variant C handlers (offset-indexed textarea editor) -/

/-- `handleLineChange` of variant C (lines 552–571): update the line, and
while recording create a timestamp at the line's start offset whenever the
new trimmed content is non-empty and no entry exists there — the previous
content of the line is never consulted. -/
def handleLineChangeC (isRecording : Bool) (now start : Nat)
    (notes : String) (timestampMap : TSMap) (index : Nat) (value : String) :
    String × TSMap :=
  let lines := setLinePadded (splitLines notes) index value
  let timestampMap' :=
    if isRecording ∧ jsTrim value ≠ "" then
      let p := lineStartPos lines index
      if mapHas timestampMap p then timestampMap
      else mapSet timestampMap p (adjustedDuration now start)
    else timestampMap
  (joinLines lines, timestampMap')

/-- The Enter branch of `handleKeyDown` of variant C (lines 579–598):
split the current line at the cursor; `timestampMap` is not touched.
`none` models the TypeError on an out-of-range index. -/
def handleKeyDownEnterC (notes : String) (timestampMap : TSMap)
    (index cursor : Nat) : Option (String × TSMap) :=
  let lines := splitLines notes
  match lines.get? index with
  | none => none
  | some currentLine =>
    let beforeCursor := strTake currentLine cursor
    let afterCursor := strDrop currentLine cursor
    let lines' := insertAt (lines.set index beforeCursor) (index + 1) afterCursor
    some (joinLines lines', timestampMap)

/-! ## Association-list lemmas -/

theorem mapHas_append (a b : TSMap) (k : Nat) :
    mapHas (a ++ b) k = (mapHas a k || mapHas b k) := by
  simp [mapHas, List.any_append]

theorem mapSet_of_not_has (m : TSMap) (k : Nat) (v : Int)
    (h : mapHas m k = false) : mapSet m k v = m ++ [(k, v)] := by
  simp [mapSet, h]

theorem mapGet_cons (x : Nat × Int) (l : TSMap) (j : Nat) :
    mapGet (x :: l) j = if x.1 = j then some x.2 else mapGet l j := by
  by_cases h : x.1 = j <;> simp [mapGet, List.find?_cons, h]

/-- A `forEach` loop that `set`s each (transformed) entry of `l` into an
accumulator map is plain `filterMap`, provided the transformed keys are
fresh for the accumulator and pairwise distinct. -/
theorem foldl_mapSet_eq (g : Nat × Int → Option (Nat × Int)) :
    ∀ (l acc : TSMap),
      (∀ p ∈ l, ∀ q, g p = some q → mapHas acc q.1 = false) →
      l.Pairwise (fun p p' => ∀ q q', g p = some q → g p' = some q' → q.1 ≠ q'.1) →
      l.foldl (fun a p => match g p with | some q => mapSet a q.1 q.2 | none => a) acc
        = acc ++ l.filterMap g := by
  intro l
  induction l with
  | nil => intro acc _ _; simp
  | cons p rest ih =>
    intro acc hacc hpw
    obtain ⟨hhead, htail⟩ := List.pairwise_cons.mp hpw
    rw [List.foldl_cons]
    cases hg : g p with
    | none =>
      simp only [hg]
      rw [ih acc (fun p' hp' q hq => hacc p' (List.mem_cons_of_mem _ hp') q hq) htail]
      simp [List.filterMap_cons, hg]
    | some q =>
      have hnot : mapHas acc q.1 = false := hacc p (List.mem_cons_self _ _) q hg
      simp only [hg]
      rw [mapSet_of_not_has acc q.1 q.2 hnot]
      rw [ih (acc ++ [(q.1, q.2)]) ?_ htail]
      · simp [List.filterMap_cons, hg, List.append_assoc]
      · intro p' hp' q' hq'
        have h1 : mapHas acc q'.1 = false :=
          hacc p' (List.mem_cons_of_mem _ hp') q' hq'
        have h2 : q.1 ≠ q'.1 := hhead p' hp' q q' hg hq'
        rw [mapHas_append, h1, Bool.false_or]
        simp [mapHas, h2]

/-- `renumberInsert` as a plain `map` over the entries. -/
def insertShiftF (m : TSMap) (index : Nat) : TSMap :=
  m.map (fun p => if p.1 < index + 1 then p else (p.1 + 1, p.2))

/-- `renumberRemove` as a plain `filterMap` over the entries. -/
def removeShiftF (m : TSMap) (index : Nat) : TSMap :=
  m.filterMap (fun p =>
    if p.1 < index then some p
    else if index < p.1 then some (p.1 - 1, p.2) else none)

theorem pairwise_fst_ne (m : TSMap) (h : keysNodup m) :
    m.Pairwise (fun p p' => p.1 ≠ p'.1) :=
  List.pairwise_map.mp h

theorem renumberInsert_eq (m : TSMap) (index : Nat) (h : keysNodup m) :
    renumberInsert m index = insertShiftF m index := by
  have hfun :
      (fun (acc : TSMap) (p : Nat × Int) =>
          if p.1 < index + 1 then mapSet acc p.1 p.2 else mapSet acc (p.1 + 1) p.2)
        = fun a p =>
            match (fun p : Nat × Int =>
              some (if p.1 < index + 1 then p else (p.1 + 1, p.2))) p with
            | some q => mapSet a q.1 q.2
            | none => a := by
    funext a p
    by_cases hp : p.1 < index + 1 <;> simp [hp]
  have hmain := foldl_mapSet_eq
    (fun p : Nat × Int => some (if p.1 < index + 1 then p else (p.1 + 1, p.2))) m []
    (by intro p _ q _; simp [mapHas])
    (by
      refine (pairwise_fst_ne m h).imp ?_
      intro p p' hne q q' hq hq'
      simp only [Option.some.injEq] at hq hq'
      subst hq hq'
      split_ifs
      all_goals try dsimp only
      all_goals omega)
  unfold renumberInsert insertShiftF
  rw [hfun, hmain, List.nil_append, ← List.filterMap_eq_map]
  rfl

theorem renumberRemove_eq (m : TSMap) (index : Nat) (h : keysNodup m) :
    renumberRemove m index = removeShiftF m index := by
  have hfun :
      (fun (acc : TSMap) (p : Nat × Int) =>
          if p.1 < index then mapSet acc p.1 p.2
          else if index < p.1 then mapSet acc (p.1 - 1) p.2 else acc)
        = fun a p =>
            match (fun p : Nat × Int =>
              if p.1 < index then some p
              else if index < p.1 then some (p.1 - 1, p.2) else none) p with
            | some q => mapSet a q.1 q.2
            | none => a := by
    funext a p
    by_cases h1 : p.1 < index <;> by_cases h2 : index < p.1 <;> simp [h1, h2]
  have hmain := foldl_mapSet_eq
    (fun p : Nat × Int =>
      if p.1 < index then some p
      else if index < p.1 then some (p.1 - 1, p.2) else none) m []
    (by intro p _ q _; simp [mapHas])
    (by
      refine (pairwise_fst_ne m h).imp ?_
      intro p p' hne q q' hq hq'
      dsimp only at hq hq'
      have hk : q.1 = p.1 ∧ p.1 < index ∨ q.1 = p.1 - 1 ∧ index < p.1 := by
        split_ifs at hq with h1 h2
        · have := Option.some.inj hq
          exact Or.inl ⟨by rw [← this], h1⟩
        · have := Option.some.inj hq
          exact Or.inr ⟨by rw [← this], h2⟩
      have hk' : q'.1 = p'.1 ∧ p'.1 < index ∨ q'.1 = p'.1 - 1 ∧ index < p'.1 := by
        split_ifs at hq' with h1 h2
        · have := Option.some.inj hq'
          exact Or.inl ⟨by rw [← this], h1⟩
        · have := Option.some.inj hq'
          exact Or.inr ⟨by rw [← this], h2⟩
      rcases hk with ⟨e, hl⟩ | ⟨e, hl⟩ <;> rcases hk' with ⟨e', hl'⟩ | ⟨e', hl'⟩ <;>
        omega)
  unfold renumberRemove removeShiftF
  rw [hfun, hmain, List.nil_append]

/-- Lookup in the shifted-up map: keys below `index + 1` are unchanged,
nothing sits at `index + 1`, and keys above read the old key one lower. -/
theorem mapGet_insertShiftF (m : TSMap) (index j : Nat) :
    mapGet (insertShiftF m index) j =
      if j < index + 1 then mapGet m j
      else if j = index + 1 then none
      else mapGet m (j - 1) := by
  induction m with
  | nil => simp [insertShiftF, mapGet]
  | cons p rest ih =>
    by_cases hp : p.1 < index + 1
    · have hhd : insertShiftF (p :: rest) index = p :: insertShiftF rest index := by
        simp [insertShiftF, hp]
      rw [hhd, mapGet_cons, ih]
      simp only [mapGet_cons]
      split_ifs <;> first | rfl | omega
    · have hhd : insertShiftF (p :: rest) index
          = (p.1 + 1, p.2) :: insertShiftF rest index := by
        simp [insertShiftF, hp]
      rw [hhd, mapGet_cons, ih]
      simp only [mapGet_cons]
      split_ifs <;> first | rfl | omega

/-- Lookup in the shifted-down map: keys below `index` are unchanged and
keys at or above `index` read the old key one higher (the old entry at
`index` itself is gone). -/
theorem mapGet_removeShiftF (m : TSMap) (index j : Nat) :
    mapGet (removeShiftF m index) j =
      if j < index then mapGet m j else mapGet m (j + 1) := by
  induction m with
  | nil => simp [removeShiftF, mapGet]
  | cons p rest ih =>
    by_cases h1 : p.1 < index
    · have hhd : removeShiftF (p :: rest) index = p :: removeShiftF rest index := by
        simp [removeShiftF, List.filterMap_cons, h1]
      rw [hhd, mapGet_cons, ih]
      simp only [mapGet_cons]
      split_ifs <;> first | rfl | omega
    · by_cases h2 : index < p.1
      · have hhd : removeShiftF (p :: rest) index
            = (p.1 - 1, p.2) :: removeShiftF rest index := by
          simp [removeShiftF, List.filterMap_cons, h1, h2]
        rw [hhd, mapGet_cons, ih]
        simp only [mapGet_cons]
        split_ifs <;> first | rfl | omega
      · have hhd : removeShiftF (p :: rest) index = removeShiftF rest index := by
          simp [removeShiftF, List.filterMap_cons, h1, h2]
        rw [hhd, ih]
        simp only [mapGet_cons]
        split_ifs <;> first | rfl | omega

theorem setLinePadded_of_lt (l : List String) (i : Nat) (v : String)
    (h : i < l.length) : setLinePadded l i v = l.set i v := by
  simp [setLinePadded, h]

theorem keysNodup_insertShiftF (m : TSMap) (index : Nat) (h : keysNodup m) :
    keysNodup (insertShiftF m index) := by
  unfold keysNodup insertShiftF
  rw [List.map_map]
  have hcomp :
      (Prod.fst ∘ fun p : Nat × Int => if p.1 < index + 1 then p else (p.1 + 1, p.2))
        = (fun k => if k < index + 1 then k else k + 1) ∘ Prod.fst := by
    funext p
    by_cases hp : p.1 < index + 1 <;> simp [hp]
  rw [hcomp, ← List.map_map]
  refine List.Nodup.map ?_ h
  intro a b hab
  dsimp only at hab
  split_ifs at hab <;> omega

theorem removeShiftF_insertShiftF (m : TSMap) (index : Nat) :
    removeShiftF (insertShiftF m index) (index + 1) = m := by
  unfold removeShiftF insertShiftF
  rw [List.filterMap_map]
  have hcomp :
      ((fun p : Nat × Int =>
          if p.1 < index + 1 then some p
          else if index + 1 < p.1 then some (p.1 - 1, p.2) else none)
        ∘ fun p : Nat × Int => if p.1 < index + 1 then p else (p.1 + 1, p.2))
        = some := by
    funext p
    by_cases hp : p.1 < index + 1
    · simp [Function.comp, hp]
    · have h1 : ¬(p.1 + 1 < index + 1) := by omega
      have h2 : index + 1 < p.1 + 1 := by omega
      simp [Function.comp, hp, h1, h2]
  rw [hcomp, List.filterMap_some]

theorem mapGet_set_self (m : TSMap) (k : Nat) (v : Int)
    (h : mapHas m k = false) : mapGet (mapSet m k v) k = some v := by
  rw [mapSet_of_not_has m k v h]
  induction m with
  | nil => simp [mapGet]
  | cons p rest ih =>
    have hp : (p.1 == k) = false := by
      simp only [mapHas, List.any_cons, Bool.or_eq_false_iff] at h
      exact h.1
    have hrest : mapHas rest k = false := by
      simp only [mapHas, List.any_cons, Bool.or_eq_false_iff] at h
      exact h.2
    simpa [mapGet, List.find?_cons, hp] using ih hrest

/-- Full characterization of `handleLineChange` (variant A) at an in-range
index: the delete-on-empty branch renumbers, and otherwise the timestamp
map gains the fresh entry exactly under the auto-anchor condition. -/
theorem handleLineChangeA_eq (isRecording : Bool) (now start : Nat)
    (notes : String) (ts : TSMap) (index : Nat) (value : String)
    (oldLine : String)
    (hold : (splitLines notes).get? index = some oldLine) :
    handleLineChangeA isRecording now start notes ts index value =
      if value = "" ∧ 1 < (splitLines notes).length then
        some (joinLines (removeAt (splitLines notes) index),
          renumberRemove ts index)
      else
        some (joinLines (setLinePadded (splitLines notes) index value),
          if isRecording = true ∧ jsTrim oldLine = "" ∧ jsTrim value ≠ ""
              ∧ mapHas ts index = false
          then mapSet ts index (adjustedDuration now start)
          else ts) := by
  unfold handleLineChangeA
  by_cases hdel : value = "" ∧ 1 < (splitLines notes).length
  · simp [hdel]
  · rw [if_neg hdel, if_neg hdel]
    cases hrec : isRecording with
    | false => simp
    | true =>
      rw [hold]
      by_cases htr : jsTrim oldLine = "" ∧ jsTrim value ≠ ""
      · cases hhas : mapHas ts index with
        | true => simp [htr, hhas]
        | false => simp [htr, hhas]
      · have : ¬(True ∧ jsTrim oldLine = "" ∧ jsTrim value ≠ ""
            ∧ mapHas ts index = false) := by
          intro hc
          exact htr ⟨hc.2.1, hc.2.2.1⟩
        simp [htr, this]

/-- Reduction of the variant A Enter branch at an in-range index. -/
theorem handleKeyDownA_enter_eq (notes : String) (ts : TSMap)
    (index cursor : Nat) (currentLine : String)
    (hline : (splitLines notes).get? index = some currentLine) :
    handleKeyDownA notes ts index cursor .enter
      = some (joinLines (insertAt ((splitLines notes).set index
            (strTake currentLine cursor)) (index + 1)
            (strDrop currentLine cursor)),
          renumberInsert ts index) := by
  simp only [handleKeyDownA, hline]

/-- Reduction of the variant A Backspace branch (cursor at 0, not the
first line). -/
theorem handleKeyDownA_backspace_eq (notes : String) (ts : TSMap)
    (index : Nat) (h : 0 < index) :
    handleKeyDownA notes ts index 0 .backspace
      = some (joinLines (removeAt (setLinePadded (splitLines notes) (index - 1)
            (((splitLines notes).get? (index - 1)).getD "undefined"
              ++ ((splitLines notes).get? index).getD "undefined")) index),
          renumberRemove ts index) := by
  simp only [handleKeyDownA]
  rw [if_pos ⟨by trivial, h⟩]

/-- Reduction of the variant A delete-on-empty branch. -/
theorem handleLineChangeA_delete_eq (isRecording : Bool) (now start : Nat)
    (notes : String) (ts : TSMap) (index : Nat)
    (h : 1 < (splitLines notes).length) :
    handleLineChangeA isRecording now start notes ts index ""
      = some (joinLines (removeAt (splitLines notes) index),
          renumberRemove ts index) := by
  simp only [handleLineChangeA]
  rw [if_pos ⟨by trivial, h⟩]

/-- C2 (amended): in the line-indexed variant A, an anchor is created —
the map becomes `mapSet ts index adjusted` — when recording is active, the
line's previous trimmed content was empty, the new trimmed content is
non-empty, and the line has no anchor yet; and never otherwise: whenever
the previous content was non-empty, or the line already has an anchor, or
recording is inactive, or the new trimmed content is empty, the timestamp
map is left unchanged except for the delete-branch renumbering, so no
anchor is created retroactively and each line gets at most one automatic
anchor.  (The offset-indexed variant C does not check the previous
content; see the counterexample.) -/
theorem handleLineChangeA_anchor_creation (isRecording : Bool)
    (now start : Nat) (notes : String) (ts : TSMap) (index : Nat)
    (value oldLine : String)
    (hold : (splitLines notes).get? index = some oldLine) :
    (isRecording = true → jsTrim oldLine = "" → jsTrim value ≠ "" →
      mapHas ts index = false →
      handleLineChangeA isRecording now start notes ts index value
        = some (joinLines ((splitLines notes).set index value),
            mapSet ts index (adjustedDuration now start))) ∧
    (jsTrim oldLine ≠ "" →
      handleLineChangeA isRecording now start notes ts index value
        = some (joinLines (removeAt (splitLines notes) index),
            renumberRemove ts index)
      ∨ handleLineChangeA isRecording now start notes ts index value
        = some (joinLines (setLinePadded (splitLines notes) index value), ts)) ∧
    (mapHas ts index = true →
      handleLineChangeA isRecording now start notes ts index value
        = some (joinLines (removeAt (splitLines notes) index),
            renumberRemove ts index)
      ∨ handleLineChangeA isRecording now start notes ts index value
        = some (joinLines (setLinePadded (splitLines notes) index value), ts)) ∧
    (isRecording = false →
      handleLineChangeA isRecording now start notes ts index value
        = some (joinLines (removeAt (splitLines notes) index),
            renumberRemove ts index)
      ∨ handleLineChangeA isRecording now start notes ts index value
        = some (joinLines (setLinePadded (splitLines notes) index value), ts)) ∧
    (jsTrim value = "" →
      handleLineChangeA isRecording now start notes ts index value
        = some (joinLines (removeAt (splitLines notes) index),
            renumberRemove ts index)
      ∨ handleLineChangeA isRecording now start notes ts index value
        = some (joinLines (setLinePadded (splitLines notes) index value), ts)) := by
  have hchar := handleLineChangeA_eq isRecording now start notes ts index value oldLine hold
  have hlt : index < (splitLines notes).length := (List.get?_eq_some.mp hold).1
  have hno : ¬(isRecording = true ∧ jsTrim oldLine = "" ∧ jsTrim value ≠ ""
        ∧ mapHas ts index = false) →
      handleLineChangeA isRecording now start notes ts index value
        = some (joinLines (removeAt (splitLines notes) index),
            renumberRemove ts index)
      ∨ handleLineChangeA isRecording now start notes ts index value
        = some (joinLines (setLinePadded (splitLines notes) index value), ts) := by
    intro hcf
    rw [hchar]
    by_cases hdel : value = "" ∧ 1 < (splitLines notes).length
    · exact Or.inl (by rw [if_pos hdel])
    · exact Or.inr (by rw [if_neg hdel, if_neg hcf])
  refine ⟨?_, ?_, ?_, ?_, ?_⟩
  · intro hrec h1 h2 hhas
    have hvne : value ≠ "" := by
      intro he
      exact h2 (by rw [he]; rfl)
    rw [hchar, if_neg (by rintro ⟨he, -⟩; exact hvne he),
      if_pos ⟨hrec, h1, h2, hhas⟩, setLinePadded_of_lt _ _ _ hlt]
  · intro h1
    exact hno (by rintro ⟨-, he, -⟩; exact h1 he)
  · intro h1
    exact hno (by rintro ⟨-, -, -, he⟩; rw [h1] at he; exact Bool.noConfusion he)
  · intro h1
    exact hno (by rintro ⟨he, -⟩; rw [h1] at he; exact Bool.noConfusion he)
  · intro h1
    exact hno (by rintro ⟨-, -, he, -⟩; exact he h1)

/-- C2 witness: on a recorded first keystroke `"x"` on the empty line 0 of
the empty document, variant A creates the anchor `0 ↦ adjusted`. -/
theorem handleLineChangeA_anchor_creation_witness :
    (splitLines "").get? 0 = some "" ∧ jsTrim "" = "" ∧ jsTrim "x" ≠ "" ∧
    mapHas ([] : TSMap) 0 = false ∧
    handleLineChangeA true 3000 0 "" [] 0 "x"
      = some (joinLines ((splitLines "").set 0 "x"),
          mapSet [] 0 (adjustedDuration 3000 0)) :=
  ⟨by decide, by decide, by decide, by decide,
    (handleLineChangeA_anchor_creation true 3000 0 "" [] 0 "x" ""
      (by decide)).1 rfl (by decide) (by decide) (by decide)⟩

/-- C2 counterexample: in variant C, editing line 0 of document `"a"` —
whose previous content `"a"` is non-empty — to `"ab"` while recording
creates the anchor `0 ↦ 3000`: anchors are created retroactively, so the
claimed previous-content condition does not hold for this variant. -/
theorem handleLineChangeC_retro_creation :
    jsTrim "a" ≠ "" ∧ mapHas ([] : TSMap) 0 = false ∧
    (handleLineChangeC true 5000 0 "a" [] 0 "ab").2 = [(0, 3000)] :=
  ⟨by decide, by decide, by decide⟩

/-- C3 (amended): in variant A, splitting line `index` (delta: insert at
`k = index + 1`) renumbers so that every anchor below `k` is unchanged, no
anchor sits at the new line `k`, and every anchor at or above `k` is
shifted up by exactly one.  (Variant C leaves its offset-keyed map
untouched on Enter; see the counterexample.) -/
theorem handleKeyDownA_enter_renumbering (notes : String) (ts : TSMap)
    (index cursor : Nat) (currentLine : String)
    (hline : (splitLines notes).get? index = some currentLine)
    (hnd : keysNodup ts) :
    handleKeyDownA notes ts index cursor .enter
      = some (joinLines (insertAt ((splitLines notes).set index
            (strTake currentLine cursor)) (index + 1)
            (strDrop currentLine cursor)),
          renumberInsert ts index) ∧
    ∀ j, mapGet (renumberInsert ts index) j =
      if j < index + 1 then mapGet ts j
      else if j = index + 1 then none
      else mapGet ts (j - 1) := by
  refine ⟨handleKeyDownA_enter_eq notes ts index cursor currentLine hline, ?_⟩
  intro j
  rw [renumberInsert_eq ts index hnd]
  exact mapGet_insertShiftF ts index j

/-- C3 witness: splitting `"ab\nc"` at line 0, offset 1, moves the anchor
at line 1 up to line 2 and leaves the new line 1 without an anchor. -/
theorem handleKeyDownA_enter_renumbering_witness :
    (splitLines "ab\nc").get? 0 = some "ab" ∧ keysNodup [(1, 7)] ∧
    mapGet (renumberInsert [(1, 7)] 0) 2 = mapGet [(1, 7)] 1 ∧
    mapGet (renumberInsert [(1, 7)] 0) 1 = none := by
  refine ⟨by decide, by decide, ?_, ?_⟩
  · have h := (handleKeyDownA_enter_renumbering "ab\nc" [(1, 7)] 0 1 "ab"
      (by decide) (by decide)).2 2
    simpa using h
  · have h := (handleKeyDownA_enter_renumbering "ab\nc" [(1, 7)] 0 1 "ab"
      (by decide) (by decide)).2 1
    simpa using h

/-- C3 counterexample: in variant C, splitting `"ab\ncd"` at line 0,
offset 1, leaves the offset-keyed map `{3 ↦ 1000}` unchanged, while the
line it anchored (`"cd"`, now line 2) starts at offset 4, where no anchor
exists — the anchors at or beyond the insertion point are not shifted. -/
theorem handleKeyDownEnterC_no_renumbering :
    handleKeyDownEnterC "ab\ncd" [(3, 1000)] 0 1
      = some ("a\nb\ncd", [(3, 1000)]) ∧
    lineStartPos (splitLines "a\nb\ncd") 2 = 4 ∧
    mapHas [(3, 1000)] 4 = false :=
  ⟨by decide, by decide, by decide⟩

/-- C4: in variant A, removing line `index` — by the Backspace merge into
the previous line, or by the delete-on-empty branch of a content edit —
renumbers so that the anchor exactly at `index` is deleted, every anchor
above `index` is decremented by one, and anchors below are untouched:
the renumbered map reads old key `j` below `index` and old key `j + 1`
from `index` on. -/
theorem removal_renumbering (isRecording : Bool) (now start : Nat)
    (notes : String) (ts : TSMap) (index : Nat) (hnd : keysNodup ts) :
    (0 < index →
      handleKeyDownA notes ts index 0 .backspace
        = some (joinLines (removeAt (setLinePadded (splitLines notes) (index - 1)
              (((splitLines notes).get? (index - 1)).getD "undefined"
                ++ ((splitLines notes).get? index).getD "undefined")) index),
            renumberRemove ts index)) ∧
    (1 < (splitLines notes).length →
      handleLineChangeA isRecording now start notes ts index ""
        = some (joinLines (removeAt (splitLines notes) index),
            renumberRemove ts index)) ∧
    ∀ j, mapGet (renumberRemove ts index) j =
      if j < index then mapGet ts j else mapGet ts (j + 1) := by
  refine ⟨fun h => handleKeyDownA_backspace_eq notes ts index h,
    fun h => handleLineChangeA_delete_eq isRecording now start notes ts index h, ?_⟩
  intro j
  rw [renumberRemove_eq ts index hnd]
  exact mapGet_removeShiftF ts index j

/-- C4 witness (spec scenario B): Backspace at the start of line 1 of
`"hello\nworld"` with anchor `{1 ↦ 3000}` merges to `"helloworld"` and
removes the anchor. -/
theorem removal_renumbering_witness :
    0 < 1 ∧ keysNodup [(1, 3000)] ∧
    handleKeyDownA "hello\nworld" [(1, 3000)] 1 0 .backspace
      = some ("helloworld", renumberRemove [(1, 3000)] 1) ∧
    renumberRemove [(1, 3000)] 1 = [] := by
  refine ⟨by decide, by decide, ?_, by decide⟩
  have h := (removal_renumbering false 0 0 "hello\nworld" [(1, 3000)] 1
    (by decide)).1 (by decide)
  exact h.trans (by decide)

/-- C5: in variant A, splitting any in-range line at any offset and then
immediately merging the new line back (Backspace at its start, with no
anchor creation in between) restores the timestamp map exactly. -/
theorem split_merge_restores (notes : String) (ts : TSMap)
    (index cursor : Nat) (currentLine : String)
    (hline : (splitLines notes).get? index = some currentLine)
    (hnd : keysNodup ts) :
    ∃ doc₁ doc₂,
      handleKeyDownA notes ts index cursor .enter
        = some (doc₁, renumberInsert ts index) ∧
      handleKeyDownA doc₁ (renumberInsert ts index) (index + 1) 0 .backspace
        = some (doc₂, ts) := by
  have hmap : renumberRemove (renumberInsert ts index) (index + 1) = ts := by
    rw [renumberInsert_eq ts index hnd,
      renumberRemove_eq _ _ (keysNodup_insertShiftF ts index hnd),
      removeShiftF_insertShiftF]
  have h := handleKeyDownA_backspace_eq
    (joinLines (insertAt ((splitLines notes).set index
      (strTake currentLine cursor)) (index + 1) (strDrop currentLine cursor)))
    (renumberInsert ts index) (index + 1) (Nat.succ_pos index)
  rw [hmap] at h
  exact ⟨_, _, handleKeyDownA_enter_eq notes ts index cursor currentLine hline, h⟩

/-- C5 witness: split `"ab"` at offset 1 with anchor `{0 ↦ 9}`, then merge
back; the anchor set returns to `{0 ↦ 9}`. -/
theorem split_merge_restores_witness :
    (splitLines "ab").get? 0 = some "ab" ∧ keysNodup [(0, 9)] ∧
    ∃ doc₁ doc₂,
      handleKeyDownA "ab" [(0, 9)] 0 1 .enter
        = some (doc₁, renumberInsert [(0, 9)] 0) ∧
      handleKeyDownA doc₁ (renumberInsert [(0, 9)] 0) 1 0 .backspace
        = some (doc₂, [(0, 9)]) :=
  ⟨by decide, by decide,
    split_merge_restores "ab" [(0, 9)] 0 1 "ab" (by decide) (by decide)⟩

/-- C7: an anchor created by variant A while recording stores exactly
`max 0 ((now - startedAt) - 2000)` milliseconds; the clamp makes the
stored value non-negative, and a keystroke 500 ms after the recording
start stores 0. -/
theorem anchor_time_formula (now start : Nat) (notes : String) (ts : TSMap)
    (index : Nat) (value oldLine : String)
    (hold : (splitLines notes).get? index = some oldLine)
    (h1 : jsTrim oldLine = "") (h2 : jsTrim value ≠ "")
    (hhas : mapHas ts index = false) :
    ∃ doc ts',
      handleLineChangeA true now start notes ts index value = some (doc, ts') ∧
      mapGet ts' index = some (max 0 ((now : Int) - (start : Int) - 2000)) ∧
      (0 : Int) ≤ max 0 ((now : Int) - (start : Int) - 2000) ∧
      adjustedDuration (start + 500) start = 0 := by
  have hmain := (handleLineChangeA_anchor_creation true now start notes ts index
    value oldLine hold).1 rfl h1 h2 hhas
  refine ⟨_, _, hmain, ?_, le_max_left 0 _, ?_⟩
  · rw [mapGet_set_self ts index _ hhas]
    rfl
  · unfold adjustedDuration TIME_OFFSET_MS
    have hv : ((start + 500 : Nat) : Int) - (start : Int) - ((2000 : Nat) : Int)
        = -1500 := by
      push_cast
      ring
    rw [hv]
    decide

/-- C7 witness: a keystroke at 500 ms (start 1000, now 1500) stores 0. -/
theorem anchor_time_formula_witness :
    (splitLines "").get? 0 = some "" ∧ jsTrim "" = "" ∧ jsTrim "a" ≠ "" ∧
    mapHas ([] : TSMap) 0 = false ∧
    ∃ doc ts',
      handleLineChangeA true 1500 1000 "" [] 0 "a" = some (doc, ts') ∧
      mapGet ts' 0 = some (max 0 ((1500 : Int) - (1000 : Int) - 2000)) ∧
      (0 : Int) ≤ max 0 ((1500 : Int) - (1000 : Int) - 2000) ∧
      adjustedDuration (1000 + 500) 1000 = 0 :=
  ⟨by decide, by decide, by decide, by decide,
    anchor_time_formula 1500 1000 "" [] 0 "a" ""
      (by decide) (by decide) (by decide) (by decide)⟩

/-! ## Key-distinctness and bound lemmas for the session invariant -/

theorem mapHas_false_not_mem_keys (m : TSMap) (k : Nat)
    (h : mapHas m k = false) : k ∉ m.map Prod.fst := by
  intro hmem
  rw [List.mem_map] at hmem
  obtain ⟨p, hp, he⟩ := hmem
  have hany : m.any (fun p => p.1 == k) = true :=
    List.any_eq_true.mpr ⟨p, hp, by simp [he]⟩
  rw [mapHas] at h
  rw [h] at hany
  exact Bool.noConfusion hany

theorem keysNodup_mapSet (m : TSMap) (k : Nat) (v : Int)
    (hh : mapHas m k = false) (h : keysNodup m) : keysNodup (mapSet m k v) := by
  rw [mapSet_of_not_has m k v hh]
  unfold keysNodup
  rw [List.map_append]
  exact List.Nodup.append h (List.nodup_singleton k)
    (List.disjoint_singleton.mpr (mapHas_false_not_mem_keys m k hh))

theorem removeShiftF_key_ne (index : Nat) (p p' : Nat × Int) (hne : p.1 ≠ p'.1)
    (q q' : Nat × Int)
    (hq : (if p.1 < index then some p
        else if index < p.1 then some (p.1 - 1, p.2) else none) = some q)
    (hq' : (if p'.1 < index then some p'
        else if index < p'.1 then some (p'.1 - 1, p'.2) else none) = some q') :
    q.1 ≠ q'.1 := by
  have hk : q.1 = p.1 ∧ p.1 < index ∨ q.1 = p.1 - 1 ∧ index < p.1 := by
    split_ifs at hq with h1 h2
    · have := Option.some.inj hq
      exact Or.inl ⟨by rw [← this], h1⟩
    · have := Option.some.inj hq
      exact Or.inr ⟨by rw [← this], h2⟩
  have hk' : q'.1 = p'.1 ∧ p'.1 < index ∨ q'.1 = p'.1 - 1 ∧ index < p'.1 := by
    split_ifs at hq' with h1 h2
    · have := Option.some.inj hq'
      exact Or.inl ⟨by rw [← this], h1⟩
    · have := Option.some.inj hq'
      exact Or.inr ⟨by rw [← this], h2⟩
  rcases hk with ⟨e, hl⟩ | ⟨e, hl⟩ <;> rcases hk' with ⟨e', hl'⟩ | ⟨e', hl'⟩ <;> omega

theorem keysNodup_removeShiftF (m : TSMap) (index : Nat) (h : keysNodup m) :
    keysNodup (removeShiftF m index) := by
  unfold keysNodup removeShiftF
  refine List.pairwise_map.mpr ?_
  refine List.Pairwise.filterMap _ ?_ (pairwise_fst_ne m h)
  intro p p' hne q hq q' hq'
  rw [Option.mem_def] at hq hq'
  exact removeShiftF_key_ne index p p' hne q q' hq hq'

theorem keys_removeShiftF_lt (m : TSMap) (index n : Nat)
    (hb : ∀ p ∈ m, p.1 < n) (hidx : index < n) :
    ∀ p ∈ removeShiftF m index, p.1 < n - 1 := by
  intro p hp
  rw [removeShiftF, List.mem_filterMap] at hp
  obtain ⟨p₀, hp₀, he⟩ := hp
  have hb₀ := hb p₀ hp₀
  split_ifs at he with h1 h2
  · obtain rfl : p₀ = p := Option.some.inj he
    omega
  · obtain rfl : ((p₀.1 - 1, p₀.2) : Nat × Int) = p := Option.some.inj he
    exact (show p₀.1 - 1 < n - 1 by omega)

theorem keys_insertShiftF_lt (m : TSMap) (index n : Nat)
    (hb : ∀ p ∈ m, p.1 < n) :
    ∀ p ∈ insertShiftF m index, p.1 < n + 1 := by
  intro p hp
  rw [insertShiftF, List.mem_map] at hp
  obtain ⟨p₀, hp₀, he⟩ := hp
  have hb₀ := hb p₀ hp₀
  by_cases h1 : p₀.1 < index + 1
  · rw [if_pos h1] at he
    subst he
    omega
  · rw [if_neg h1] at he
    subst he
    exact (show p₀.1 + 1 < n + 1 by omega)

/-! ## Line-count lemmas -/

theorem removeAt_length (l : List String) (i : Nat) (h : i < l.length) :
    (removeAt l i).length = l.length - 1 := by
  simp only [removeAt, List.length_append, List.length_take, List.length_drop]
  omega

theorem insertAt_length (l : List String) (i : Nat) (v : String) :
    (insertAt l i v).length = l.length + 1 := by
  simp only [insertAt, List.length_append, List.length_take, List.length_drop,
    List.length_cons, List.length_nil]
  omega

theorem setLinePadded_length_of_lt (l : List String) (i : Nat) (v : String)
    (h : i < l.length) : (setLinePadded l i v).length = l.length := by
  rw [setLinePadded_of_lt l i v h, List.length_set]

theorem splitLines_go_length (l acc : List Char) :
    (splitLines.go l acc).length = l.count '\n' + 1 := by
  induction l generalizing acc with
  | nil => rfl
  | cons c rest ih =>
    by_cases hc : c = '\n'
    · simp [splitLines.go, hc, ih, List.count_cons]
    · simp [splitLines.go, hc, ih, List.count_cons]

theorem splitLines_length (s : String) :
    (splitLines s).length = s.data.count '\n' + 1 :=
  splitLines_go_length s.data []

theorem intercalate_go_count (as : List String) (acc : String) :
    acc.data.count '\n' + as.length
      ≤ (String.intercalate.go acc "\n" as).data.count '\n' := by
  induction as generalizing acc with
  | nil => simp [String.intercalate.go]
  | cons a rest ih =>
    have hstep := ih (acc ++ "\n" ++ a)
    have hcount : (acc ++ "\n" ++ a).data.count '\n'
        = acc.data.count '\n' + 1 + a.data.count '\n' := by
      simp [List.count_append]
      omega
    rw [String.intercalate.go, List.length_cons]
    omega

/-- Joining and re-splitting never produces fewer lines than the join was
given (it can produce more when a line itself contains a newline, e.g.
after a multi-line paste). -/
theorem length_le_splitLines_joinLines (l : List String) :
    l.length ≤ (splitLines (joinLines l)).length := by
  cases l with
  | nil => simp
  | cons a as =>
    rw [splitLines_length]
    have h := intercalate_go_count as a
    have : joinLines (a :: as) = String.intercalate.go a "\n" as := rfl
    rw [this, List.length_cons]
    omega

/-- C9 (amended): variant A's content edit completes — returns a new
state — exactly when the edit takes the delete-on-empty branch, or the
index refers to an existing line, or recording is off; while recording, a
content edit at an out-of-range index dereferences the missing previous
line (`undefined.trim()`) and throws instead of treating the entry as
silently absent. -/
theorem handleLineChangeA_total_iff (isRecording : Bool) (now start : Nat)
    (notes : String) (ts : TSMap) (index : Nat) (value : String) :
    (handleLineChangeA isRecording now start notes ts index value).isSome = true ↔
      (value = "" ∧ 1 < (splitLines notes).length) ∨
      index < (splitLines notes).length ∨ isRecording = false := by
  unfold handleLineChangeA
  by_cases hdel : value = "" ∧ 1 < (splitLines notes).length
  · simp [hdel]
  · cases hrec : isRecording with
    | false => simp [hdel]
    | true =>
      cases hidx : (splitLines notes).get? index with
      | none =>
        have hlen := List.get?_eq_none.mp hidx
        have hidx' : (splitLines notes)[index]? = none := by
          rw [← List.get?_eq_getElem?]
          exact hidx
        have hge : ¬ index < (splitLines notes).length := by omega
        simp [hdel, hidx, hidx', hge]
      | some old =>
        have hlt : index < (splitLines notes).length :=
          (List.get?_eq_some.mp hidx).1
        have hidx' : (splitLines notes)[index]? = some old := by
          rw [← List.get?_eq_getElem?]
          exact hidx
        simp only [hdel, hidx, hidx', if_false, ite_false, eq_self_iff_true,
          ite_true]
        constructor
        · intro _
          exact Or.inr (Or.inl hlt)
        · intro _
          split_ifs <;> rfl

/-- C9 counterexample: a content edit at the nonexistent line 3 of the
one-line document `"a"` while recording throws (the model returns `none`)
— the session does not degrade gracefully. -/
theorem handleLineChangeA_out_of_range_throws :
    handleLineChangeA true 0 0 "a" [] 3 "x" = none := by decide

/-! ## Editing sessions (C6)

A variant A editing session: the parent state holds the joined notes text
and the line-indexed timestamp map, and every user input event runs one
handler.  The browser attaches the handlers to the rendered lines, so the
index of a delivered event always names an existing line; `applyEvent`
checks this, and a handler that would throw leaves the state unchanged. -/

/-- One user input event of the variant A editor.  A content edit carries
the recording state and the wall-clock instants the handler would read. -/
inductive EditEvent where
  | content (index : Nat) (value : String) (isRecording : Bool) (now start : Nat)
  | enter (index cursor : Nat)
  | backspace (index cursor : Nat)

/-- The editor state owned by the session: the notes text and the
line-indexed timestamp map. -/
structure EditorState where
  notes : String
  ts : TSMap

/-- The initial state: one empty line, no anchors. -/
def initialState : EditorState := ⟨"", []⟩

/-- Dispatch one input event to the matching variant A handler. -/
def applyEvent (st : EditorState) (e : EditEvent) : EditorState :=
  match e with
  | .content index value isRecording now start =>
    if index < (splitLines st.notes).length then
      match handleLineChangeA isRecording now start st.notes st.ts index value with
      | some (n, t) => ⟨n, t⟩
      | none => st
    else st
  | .enter index cursor =>
    if index < (splitLines st.notes).length then
      match handleKeyDownA st.notes st.ts index cursor .enter with
      | some (n, t) => ⟨n, t⟩
      | none => st
    else st
  | .backspace index cursor =>
    if index < (splitLines st.notes).length then
      match handleKeyDownA st.notes st.ts index cursor .backspace with
      | some (n, t) => ⟨n, t⟩
      | none => st
    else st

/-- Run a whole session from the initial state. -/
def runEvents (evs : List EditEvent) : EditorState :=
  evs.foldl applyEvent initialState

/-- Session invariant: distinct anchor keys, all naming existing lines. -/
def goodState (st : EditorState) : Prop :=
  keysNodup st.ts ∧ ∀ p ∈ st.ts, p.1 < (splitLines st.notes).length

theorem goodState_initial : goodState initialState :=
  ⟨List.nodup_nil, fun p hp => absurd hp (List.not_mem_nil p)⟩

theorem goodState_renumberRemove (lines' : List String) (ts : TSMap)
    (index n : Nat) (hnd : keysNodup ts) (hb : ∀ p ∈ ts, p.1 < n)
    (hidx : index < n) (hlen : n - 1 ≤ lines'.length) :
    goodState ⟨joinLines lines', renumberRemove ts index⟩ := by
  rw [renumberRemove_eq ts index hnd]
  refine ⟨keysNodup_removeShiftF ts index hnd, ?_⟩
  intro p hp
  have h1 := keys_removeShiftF_lt ts index n hb hidx p hp
  have h2 := length_le_splitLines_joinLines lines'
  show p.1 < (splitLines (joinLines lines')).length
  omega

theorem goodState_renumberInsert (lines' : List String) (ts : TSMap)
    (index n : Nat) (hnd : keysNodup ts) (hb : ∀ p ∈ ts, p.1 < n)
    (hlen : n + 1 ≤ lines'.length) :
    goodState ⟨joinLines lines', renumberInsert ts index⟩ := by
  rw [renumberInsert_eq ts index hnd]
  refine ⟨keysNodup_insertShiftF ts index hnd, ?_⟩
  intro p hp
  have h1 := keys_insertShiftF_lt ts index n hb p hp
  have h2 := length_le_splitLines_joinLines lines'
  show p.1 < (splitLines (joinLines lines')).length
  omega

theorem goodState_applyEvent (st : EditorState) (e : EditEvent)
    (h : goodState st) : goodState (applyEvent st e) := by
  obtain ⟨hnd, hb⟩ := h
  cases e with
  | content index value isRecording now start =>
    dsimp only [applyEvent]
    by_cases hidx : index < (splitLines st.notes).length
    · rw [if_pos hidx]
      obtain ⟨hlt, hget⟩ := List.get?_eq_some.mp
        (List.get?_eq_get (l := splitLines st.notes) (n := index) hidx)
      rw [handleLineChangeA_eq isRecording now start st.notes st.ts index value
        ((splitLines st.notes).get ⟨index, hidx⟩)
        (List.get?_eq_get (l := splitLines st.notes) (n := index) hidx)]
      by_cases hdel : value = "" ∧ 1 < (splitLines st.notes).length
      · rw [if_pos hdel]
        exact goodState_renumberRemove (removeAt (splitLines st.notes) index)
          st.ts index (splitLines st.notes).length hnd hb hidx
          (by rw [removeAt_length _ _ hidx])
      · rw [if_neg hdel]
        have hlines : (splitLines st.notes).length
            ≤ (splitLines (joinLines
              (setLinePadded (splitLines st.notes) index value))).length := by
          have h1 := length_le_splitLines_joinLines
            (setLinePadded (splitLines st.notes) index value)
          rw [setLinePadded_length_of_lt _ _ _ hidx] at h1
          exact h1
        by_cases hcr : isRecording = true ∧ jsTrim ((splitLines st.notes).get
            ⟨index, hidx⟩) = "" ∧ jsTrim value ≠ "" ∧ mapHas st.ts index = false
        · rw [if_pos hcr]
          refine ⟨keysNodup_mapSet st.ts index _ hcr.2.2.2 hnd, ?_⟩
          show ∀ p ∈ mapSet st.ts index (adjustedDuration now start),
            p.1 < (splitLines (joinLines
              (setLinePadded (splitLines st.notes) index value))).length
          intro p hp
          rw [mapSet_of_not_has st.ts index _ hcr.2.2.2, List.mem_append] at hp
          rcases hp with hp | hp
          · have := hb p hp
            omega
          · rw [List.mem_singleton] at hp
            subst hp
            exact (show index < (splitLines (joinLines
              (setLinePadded (splitLines st.notes) index value))).length by omega)
        · rw [if_neg hcr]
          refine ⟨hnd, ?_⟩
          show ∀ p ∈ st.ts, p.1 < (splitLines (joinLines
            (setLinePadded (splitLines st.notes) index value))).length
          intro p hp
          have := hb p hp
          omega
    · rw [if_neg hidx]
      exact ⟨hnd, hb⟩
  | enter index cursor =>
    dsimp only [applyEvent]
    by_cases hidx : index < (splitLines st.notes).length
    · rw [if_pos hidx]
      rw [handleKeyDownA_enter_eq st.notes st.ts index cursor
        ((splitLines st.notes).get ⟨index, hidx⟩)
        (List.get?_eq_get (l := splitLines st.notes) (n := index) hidx)]
      refine goodState_renumberInsert _ st.ts index
        (splitLines st.notes).length hnd hb ?_
      rw [insertAt_length, List.length_set]
    · rw [if_neg hidx]
      exact ⟨hnd, hb⟩
  | backspace index cursor =>
    dsimp only [applyEvent]
    by_cases hidx : index < (splitLines st.notes).length
    · rw [if_pos hidx]
      by_cases hcur : cursor = 0 ∧ 0 < index
      · obtain ⟨rfl, hpos⟩ := hcur
        rw [handleKeyDownA_backspace_eq st.notes st.ts index hpos]
        refine goodState_renumberRemove _ st.ts index
          (splitLines st.notes).length hnd hb hidx ?_
        rw [removeAt_length, setLinePadded_length_of_lt]
        · omega
        · rw [setLinePadded_length_of_lt]
          · exact hidx
          · omega
      · have hno : handleKeyDownA st.notes st.ts index cursor .backspace
            = some (st.notes, st.ts) := by
          simp only [handleKeyDownA]
          rw [if_neg hcur]
        rw [hno]
        exact ⟨hnd, hb⟩
    · rw [if_neg hidx]
      exact ⟨hnd, hb⟩

theorem goodState_runEvents (evs : List EditEvent) :
    goodState (runEvents evs) := by
  unfold runEvents
  induction evs using List.reverseRecOn with
  | nil => exact goodState_initial
  | append_singleton evs e ih =>
    rw [List.foldl_append, List.foldl_cons, List.foldl_nil]
    exact goodState_applyEvent _ e ih

theorem length_le_of_nodup_lt (l : List Nat) (n : Nat) (hnd : l.Nodup)
    (hlt : ∀ k ∈ l, k < n) : l.length ≤ n := by
  have hsub : l.toFinset ⊆ Finset.range n := fun k hk =>
    Finset.mem_range.mpr (hlt k (List.mem_toFinset.mp hk))
  have hcard := Finset.card_le_card hsub
  rwa [List.toFinset_card_of_nodup hnd, Finset.card_range] at hcard

/-- C6 (amended): over every editing session of the line-indexed variant A
starting from one empty line and no anchors, the number of stored anchors
never exceeds the number of lines of the document.  (The offset-indexed
variant C does not satisfy this bound; see the counterexample.) -/
theorem anchors_le_lines (evs : List EditEvent) :
    (runEvents evs).ts.length ≤ (splitLines (runEvents evs).notes).length := by
  obtain ⟨hnd, hb⟩ := goodState_runEvents evs
  have hkeys : ((runEvents evs).ts.map Prod.fst).length
      ≤ (splitLines (runEvents evs).notes).length := by
    refine length_le_of_nodup_lt _ _ hnd ?_
    intro k hk
    rw [List.mem_map] at hk
    obtain ⟨p, hp, he⟩ := hk
    rw [← he]
    exact hb p hp
  rwa [List.length_map] at hkeys

/-- C6 counterexample: the offset-indexed variant C never renumbers or
prunes its anchors, so stale offset keys accumulate.  In the recorded
session — type `"a"` on line 0, press Enter after it, type `"b"` on the
new line 1, lengthen line 0 to `"aXY"` (shifting line 1's start to offset
4 while the anchor stays at the stale key 2), then type `"bZ"` on line 1
(creating a fresh anchor at offset 4) — the final document has 2 lines but
the map holds 3 anchors. -/
theorem handleLineChangeC_anchors_exceed_lines :
    handleLineChangeC true 2000 0 "" [] 0 "a" = ("a", [(0, 0)]) ∧
    handleKeyDownEnterC "a" [(0, 0)] 0 1 = some ("a\n", [(0, 0)]) ∧
    handleLineChangeC true 2000 0 "a\n" [(0, 0)] 1 "b"
      = ("a\nb", [(0, 0), (2, 0)]) ∧
    handleLineChangeC true 2000 0 "a\nb" [(0, 0), (2, 0)] 0 "aXY"
      = ("aXY\nb", [(0, 0), (2, 0)]) ∧
    handleLineChangeC true 2000 0 "aXY\nb" [(0, 0), (2, 0)] 1 "bZ"
      = ("aXY\nbZ", [(0, 0), (2, 0), (4, 0)]) ∧
    (splitLines "aXY\nbZ").length = 2 ∧
    ([(0, 0), (2, 0), (4, 0)] : TSMap).length = 3 ∧
    ¬ ((3 : Nat) ≤ 2) := by
  refine ⟨by decide, by decide, by decide, by decide, by decide,
    by decide, by decide, by decide⟩

/-! ## NearestAnchorLookup (variant B) -/

/-- `Math.abs(pos - index)`. -/
def natDist (pos index : Nat) : Nat :=
  ((pos : Int) - (index : Int)).natAbs

/-- The strict comparison `dist < minDist` against the running minimum,
where `none` is the initial `Infinity`. -/
def ltInf (d : Nat) : Option Nat → Prop
  | none => True
  | some md => d < md

instance (d : Nat) : (o : Option Nat) → Decidable (ltInf d o)
  | none => isTrue trivial
  | some md => Nat.decLt d md

/-- The `timestampMap.forEach` loop of `findNearestTimestamp` (variant B,
lines 447–460): update `nearest`/`minDist` whenever
`dist < minDist && dist < 20`. -/
def findNearAux (index : Nat) :
    List (Nat × Int) → Option Int → Option Nat → Option Int
  | [], nearest, _ => nearest
  | (pos, time) :: rest, nearest, minDist =>
    let dist := natDist pos index
    if ltInf dist minDist ∧ dist < 20 then
      findNearAux index rest (some time) (some dist)
    else
      findNearAux index rest nearest minDist

/-- `findNearestTimestamp` of variant B: the stored time nearest to the
target offset, provided the distance is under 20; otherwise `null`. -/
def findNearestTimestamp (timestampMap : TSMap) (index : Nat) : Option Int :=
  findNearAux index timestampMap none none

/-- Structural reference for the loop: the time and distance of the first
entry attaining the minimum distance among entries closer than 20. -/
def firstMinAux (index : Nat) : List (Nat × Int) → Option (Int × Nat)
  | [] => none
  | (pos, t) :: rest =>
    let d := natDist pos index
    match firstMinAux index rest with
    | none => if d < 20 then some (t, d) else none
    | some (u, e) => if d < 20 ∧ d ≤ e then some (t, d) else some (u, e)

theorem findNearAux_eq (index : Nat) :
    ∀ (m : List (Nat × Int)) (t0 : Option Int) (md? : Option Nat),
      findNearAux index m t0 md? =
        match firstMinAux index m, md? with
        | none, _ => t0
        | some (u, _), none => some u
        | some (u, e), some md => if e < md then some u else t0 := by
  intro m
  induction m with
  | nil =>
    intro t0 md?
    cases md? <;> rfl
  | cons p rest ih =>
    intro t0 md?
    obtain ⟨pos, t⟩ := p
    simp only [findNearAux, firstMinAux]
    cases md? with
    | none =>
      by_cases h20 : natDist pos index < 20
      · rw [if_pos ⟨trivial, h20⟩, ih (some t) (some (natDist pos index))]
        cases hfm : firstMinAux index rest with
        | none => simp [hfm, h20]
        | some ue =>
          obtain ⟨u, e⟩ := ue
          by_cases hde : natDist pos index ≤ e
          · have hne : ¬ e < natDist pos index := by omega
            simp [hfm, h20, hde, hne]
          · have hlt : e < natDist pos index := by omega
            simp [hfm, h20, hde, hlt]
      · rw [if_neg (fun hc => h20 hc.2), ih t0 none]
        cases hfm : firstMinAux index rest with
        | none => simp [hfm, h20]
        | some ue =>
          obtain ⟨u, e⟩ := ue
          simp [hfm, h20]
    | some md =>
      by_cases hcond : natDist pos index < md ∧ natDist pos index < 20
      · rw [if_pos ⟨hcond.1, hcond.2⟩, ih (some t) (some (natDist pos index))]
        cases hfm : firstMinAux index rest with
        | none => simp [hfm, hcond.1, hcond.2]
        | some ue =>
          obtain ⟨u, e⟩ := ue
          by_cases hde : natDist pos index ≤ e
          · have hne : ¬ e < natDist pos index := by omega
            simp [hfm, hcond.1, hcond.2, hde, hne]
          · have h1 : e < natDist pos index := by omega
            have h2 : e < md := by omega
            simp [hfm, hcond.2, hde, h1, h2]
      · rw [if_neg (show ¬(ltInf (natDist pos index) (some md)
            ∧ natDist pos index < 20) from hcond), ih t0 (some md)]
        cases hfm : firstMinAux index rest with
        | none =>
          by_cases h20 : natDist pos index < 20
          · have hdm : ¬ natDist pos index < md := fun h => hcond ⟨h, h20⟩
            simp [hfm, h20, hdm]
          · simp [hfm, h20]
        | some ue =>
          obtain ⟨u, e⟩ := ue
          by_cases h20 : natDist pos index < 20
          · have hdm : ¬ natDist pos index < md := fun h => hcond ⟨h, h20⟩
            by_cases hde : natDist pos index ≤ e
            · have h1 : ¬ e < md := by omega
              simp [hfm, h20, hde, h1, hdm]
            · simp [hfm, h20, hde]
          · simp [hfm, h20]

theorem firstMinAux_of_far (index : Nat) :
    ∀ m : List (Nat × Int), (∀ p ∈ m, 20 ≤ natDist p.1 index) →
      firstMinAux index m = none := by
  intro m
  induction m with
  | nil => intro _; rfl
  | cons p rest ih =>
    intro h
    obtain ⟨pos, t⟩ := p
    have h20 : ¬ natDist pos index < 20 := by
      have hx : 20 ≤ natDist pos index := h (pos, t) (List.mem_cons_self _ _)
      omega
    simp only [firstMinAux,
      ih (fun q hq => h q (List.mem_cons_of_mem _ hq)), h20]
    simp

theorem firstMinAux_mem (index : Nat) :
    ∀ (m : List (Nat × Int)) (u : Int) (e : Nat),
      firstMinAux index m = some (u, e) →
      ∃ q ∈ m, q.2 = u ∧ natDist q.1 index = e ∧ e < 20 := by
  intro m
  induction m with
  | nil =>
    intro u e h
    exact absurd h (by simp [firstMinAux])
  | cons p rest ih =>
    intro u e h
    obtain ⟨pos, t⟩ := p
    simp only [firstMinAux] at h
    cases hfm : firstMinAux index rest with
    | none =>
      rw [hfm] at h
      dsimp only at h
      split_ifs at h with h20
      have hinj := Option.some.inj h
      have hu : t = u := congrArg Prod.fst hinj
      have he : natDist pos index = e := congrArg Prod.snd hinj
      refine ⟨(pos, t), List.mem_cons_self _ _, hu, he, ?_⟩
      rw [← he]
      exact h20
    | some ue =>
      obtain ⟨u2, e2⟩ := ue
      rw [hfm] at h
      dsimp only at h
      split_ifs at h with hcond
      · have hinj := Option.some.inj h
        have hu : t = u := congrArg Prod.fst hinj
        have he : natDist pos index = e := congrArg Prod.snd hinj
        refine ⟨(pos, t), List.mem_cons_self _ _, hu, he, ?_⟩
        rw [← he]
        exact hcond.1
      · have hinj := Option.some.inj h
        have hu : u2 = u := congrArg Prod.fst hinj
        have he : e2 = e := congrArg Prod.snd hinj
        obtain ⟨q, hq, hq1, hq2, hq3⟩ := ih u2 e2 hfm
        refine ⟨q, List.mem_cons_of_mem _ hq, ?_, ?_, ?_⟩
        · rw [hq1, hu]
        · rw [hq2, he]
        · rw [← he]
          exact hq3

theorem firstMinAux_first_winner (index : Nat) :
    ∀ (l₁ : List (Nat × Int)) (p : Nat × Int) (l₂ : List (Nat × Int)),
      natDist p.1 index < 20 →
      (∀ q ∈ l₁, natDist p.1 index < natDist q.1 index) →
      (∀ q ∈ l₂, natDist p.1 index ≤ natDist q.1 index) →
      firstMinAux index (l₁ ++ p :: l₂) = some (p.2, natDist p.1 index) := by
  intro l₁
  induction l₁ with
  | nil =>
    intro p l₂ h20 _ hafter
    obtain ⟨pos, t⟩ := p
    have h20x : natDist pos index < 20 := h20
    have hafterx : ∀ q ∈ l₂, natDist pos index ≤ natDist q.1 index := hafter
    show firstMinAux index ((pos, t) :: l₂) = some (t, natDist pos index)
    simp only [firstMinAux]
    cases hfm : firstMinAux index l₂ with
    | none =>
      dsimp only
      rw [if_pos h20x]
    | some ue =>
      obtain ⟨u, e⟩ := ue
      obtain ⟨q, hq, -, hqd, -⟩ := firstMinAux_mem index l₂ u e hfm
      have hle : natDist pos index ≤ e := by
        have := hafterx q hq
        omega
      dsimp only
      rw [if_pos ⟨h20x, hle⟩]
  | cons q l₁ ih =>
    intro p l₂ h20 hbefore hafter
    have hid := ih p l₂ h20
      (fun r hr => hbefore r (List.mem_cons_of_mem _ hr)) hafter
    obtain ⟨qpos, qt⟩ := q
    have hqd : natDist p.1 index < natDist qpos index :=
      hbefore (qpos, qt) (List.mem_cons_self _ _)
    show firstMinAux index ((qpos, qt) :: (l₁ ++ p :: l₂))
        = some (p.2, natDist p.1 index)
    simp only [firstMinAux, hid]
    have hnle : ¬ (natDist qpos index < 20
        ∧ natDist qpos index ≤ natDist p.1 index) := fun hc => by omega
    rw [if_neg hnle]

/-- C8: `findNearestTimestamp` returns `none` whenever every stored anchor
is at distance at least 20 from the target (in particular when the map is
empty), and returns the stored time of the anchor minimizing the distance
when that minimum is under 20, the first such anchor winning ties: the
entry `p` wins whenever it is strictly closer than every earlier entry and
at least as close as every later one. -/
theorem findNearestTimestamp_spec (m : TSMap) (index : Nat) :
    ((∀ p ∈ m, 20 ≤ natDist p.1 index) →
      findNearestTimestamp m index = none) ∧
    ∀ (l₁ : TSMap) (p : Nat × Int) (l₂ : TSMap),
      m = l₁ ++ p :: l₂ →
      natDist p.1 index < 20 →
      (∀ q ∈ l₁, natDist p.1 index < natDist q.1 index) →
      (∀ q ∈ l₂, natDist p.1 index ≤ natDist q.1 index) →
      findNearestTimestamp m index = some p.2 := by
  constructor
  · intro hfar
    unfold findNearestTimestamp
    rw [findNearAux_eq, firstMinAux_of_far index m hfar]
  · intro l₁ p l₂ hm h20 hbefore hafter
    subst hm
    unfold findNearestTimestamp
    rw [findNearAux_eq, firstMinAux_first_winner index l₁ p l₂ h20 hbefore hafter]

/-- C8 witness: with anchors at offsets 30 (time 111) and 4 (time 222) and
target 5, the minimum distance 1 is under 20 and the lookup returns 222;
the same theorem also gives `none` for the lone anchor at distance 25. -/
theorem findNearestTimestamp_spec_witness :
    natDist 4 5 < 20 ∧
    findNearestTimestamp [(30, 111), (4, 222)] 5 = some 222 ∧
    (20 : Nat) ≤ natDist 30 5 ∧
    findNearestTimestamp [(30, 111)] 5 = none := by
  refine ⟨by decide, ?_, by decide, ?_⟩
  · exact (findNearestTimestamp_spec [(30, 111), (4, 222)] 5).2
      [(30, 111)] (4, 222) [] rfl (by decide) (by decide) (by decide)
  · exact (findNearestTimestamp_spec [(30, 111)] 5).1 (by decide)

/-! ## Inline timestamp markers (variant B) and the Word exporter -/

/-- `n.toString().padStart(2, '0')`. -/
def padStart2 (n : Nat) : String :=
  let s := toString n
  if s.length < 2 then "0" ++ s else s

/-- `formatTime` (identical in all three variants): `HH:MM:SS` from
milliseconds, each component padded to two digits. -/
def formatTime (ms : Nat) : String :=
  let totalSeconds := ms / 1000
  let hours := totalSeconds / 3600
  let minutes := totalSeconds % 3600 / 60
  let seconds := totalSeconds % 60
  padStart2 hours ++ ":" ++ padStart2 minutes ++ ":" ++ padStart2 seconds

/-- The inline marker text `` `[${timeStr}] ` `` that
`insertTimestampAtPosition` (variant B, lines 410–428) inserts at the
start of a new line. -/
def tsMarker (ms : Nat) : String :=
  "[" ++ formatTime ms ++ "] "

/-- `insertTimestampAtPosition` of variant B: splice the marker into the
text at `position` and record `position ↦ adjusted` in the offset-keyed
map (`adjustedDuration` is clamped non-negative, so `Int.toNat` is
lossless). -/
def insertTimestampAtPosition (text : String) (timestampMap : TSMap)
    (now start position : Nat) : String × TSMap :=
  let adjusted := adjustedDuration now start
  let timeStr := formatTime adjusted.toNat
  (strTake text position ++ "[" ++ timeStr ++ "] " ++ strDrop text position,
    mapSet timestampMap position adjusted)

/-- The mandatory core `\d{2}:\d{2}:\d{2}` of the exporter's pattern at
the head of the text; on success returns the remainder. -/
def matchTsCore : List Char → Option (List Char)
  | d1 :: d2 :: c1 :: d3 :: d4 :: c2 :: d5 :: d6 :: rest =>
    if d1.isDigit ∧ d2.isDigit ∧ c1 = ':' ∧ d3.isDigit ∧ d4.isDigit
        ∧ c2 = ':' ∧ d5.isDigit ∧ d6.isDigit then
      some rest
    else none
  | _ => none

/-- One attempt of the exporter's pattern `\[?\d{2}:\d{2}:\d{2}\]?\s*` at
the head of the text.  A leading `[` commits to the digit core right after
it; this agrees with the regex's backtracking, because retrying with
`\[?` matching nothing would put the non-digit `[` under `\d{2}`.  The
optional `]` and the greedy `\s*` then extend the match. -/
def matchTs (l : List Char) : Option (List Char) :=
  (match l with
    | '[' :: r => matchTsCore r
    | _ => matchTsCore l).map
    (fun rest =>
      (match rest with
        | ']' :: r => r
        | _ => rest).dropWhile isJsSpace)

/-- The global replace: scan left to right; at a match skip it, otherwise
keep one character.  Fuel is the text length — every step consumes at
least one character. -/
def removeTsAux : Nat → List Char → List Char
  | 0, l => l
  | _ + 1, [] => []
  | fuel + 1, c :: rest =>
    match matchTs (c :: rest) with
    | some rest2 => removeTsAux fuel rest2
    | none => c :: removeTsAux fuel rest

/-- `WordExporter.removeTimestamps` (`wordExporter.ts`, lines 105–108):
`html.replace(/\[?\d{2}:\d{2}:\d{2}\]?\s*/g, '')`. -/
def removeTimestamps (html : String) : String :=
  String.mk (removeTsAux html.data.length html.data)

theorem matchTsCore_length (l r : List Char) (h : matchTsCore l = some r) :
    r.length + 8 = l.length := by
  unfold matchTsCore at h
  split at h
  · split_ifs at h
    obtain rfl := Option.some.inj h
    simp
  · exact absurd h (by simp)

theorem matchTs_length (l r : List Char) (h : matchTs l = some r) :
    r.length < l.length := by
  unfold matchTs at h
  rw [Option.map_eq_some'] at h
  obtain ⟨rest, hcore, hr⟩ := h
  have hlen : rest.length + 8 ≤ l.length := by
    split at hcore
    · next t =>
      have := matchTsCore_length t rest hcore
      simp only [List.length_cons]
      omega
    · have := matchTsCore_length l rest hcore
      omega
  have hrle : r.length ≤ rest.length := by
    split at hr
    · next t =>
      rw [← hr]
      have hs : (List.dropWhile isJsSpace t).length ≤ t.length :=
        (List.dropWhile_sublist isJsSpace).length_le
      simp only [List.length_cons]
      omega
    · rw [← hr]
      exact (List.dropWhile_sublist isJsSpace).length_le
  omega

theorem removeTsAux_congr (n : Nat) : ∀ (l : List Char) (f₁ f₂ : Nat),
    l.length ≤ n → l.length ≤ f₁ → l.length ≤ f₂ →
    removeTsAux f₁ l = removeTsAux f₂ l := by
  induction n with
  | zero =>
    intro l f₁ f₂ h0 _ _
    have hl : l = [] := List.eq_nil_of_length_eq_zero (by omega)
    subst hl
    cases f₁ <;> cases f₂ <;> rfl
  | succ n ih =>
    intro l f₁ f₂ h0 h1 h2
    cases l with
    | nil => cases f₁ <;> cases f₂ <;> rfl
    | cons c rest =>
      rw [List.length_cons] at h0 h1 h2
      cases f₁ with
      | zero => omega
      | succ f₁ =>
        cases f₂ with
        | zero => omega
        | succ f₂ =>
          simp only [removeTsAux]
          cases hm : matchTs (c :: rest) with
          | some rest2 =>
            have hlt := matchTs_length _ _ hm
            rw [List.length_cons] at hlt
            exact ih rest2 f₁ f₂ (by omega) (by omega) (by omega)
          | none =>
            rw [ih rest f₁ f₂ (by omega) (by omega) (by omega)]

theorem padStart2_digits :
    ∀ n, n < 100 → (padStart2 n).data.length = 2
      ∧ ∀ c ∈ (padStart2 n).data, c.isDigit := by decide

theorem padStart2_shape (n : Nat) (h : n < 100) :
    ∃ a b, (padStart2 n).data = [a, b] ∧ a.isDigit ∧ b.isDigit := by
  obtain ⟨hlen, hdig⟩ := padStart2_digits n h
  cases hd : (padStart2 n).data with
  | nil =>
    rw [hd] at hlen
    exact absurd hlen (by simp)
  | cons a t =>
    cases t with
    | nil =>
      rw [hd] at hlen
      exact absurd hlen (by simp)
    | cons b t2 =>
      cases t2 with
      | nil =>
        rw [hd] at hdig
        exact ⟨a, b, rfl, hdig a (by simp), hdig b (by simp)⟩
      | cons c t3 =>
        rw [hd] at hlen
        simp at hlen

theorem formatTime_shape (ms : Nat) (h : ms < 360000000) :
    ∃ a1 a2 b1 b2 c1 c2 : Char,
      (formatTime ms).data = [a1, a2, ':', b1, b2, ':', c1, c2] ∧
      a1.isDigit ∧ a2.isDigit ∧ b1.isDigit ∧ b2.isDigit
        ∧ c1.isDigit ∧ c2.isDigit := by
  have hh : ms / 1000 / 3600 < 100 := by omega
  have hm : ms / 1000 % 3600 / 60 < 100 := by omega
  have hs : ms / 1000 % 60 < 100 := by omega
  obtain ⟨a1, a2, ha, ha1, ha2⟩ := padStart2_shape _ hh
  obtain ⟨b1, b2, hb, hb1, hb2⟩ := padStart2_shape _ hm
  obtain ⟨c1, c2, hc, hc1, hc2⟩ := padStart2_shape _ hs
  refine ⟨a1, a2, b1, b2, c1, c2, ?_, ha1, ha2, hb1, hb2, hc1, hc2⟩
  show ((padStart2 (ms / 1000 / 3600) ++ ":" ++ padStart2 (ms / 1000 % 3600 / 60)
      ++ ":" ++ padStart2 (ms / 1000 % 60)) : String).data = _
  rw [String.data_append, String.data_append, String.data_append,
    String.data_append, ha, hb, hc]
  rfl

theorem dropWhile_eq_self_of_head (l : List Char)
    (h : l.head?.all (fun c => !isJsSpace c) = true) :
    l.dropWhile isJsSpace = l := by
  cases l with
  | nil => rfl
  | cons c t =>
    simp only [List.head?_cons, Option.all_some, Bool.not_eq_true'] at h
    simp [List.dropWhile, h]

theorem matchTs_marker (ms : Nat) (hms : ms < 360000000) (post : List Char)
    (hpost : post.head?.all (fun c => !isJsSpace c) = true) :
    matchTs ((tsMarker ms).data ++ post) = some post := by
  obtain ⟨a1, a2, b1, b2, c1, c2, hft, h1, h2, h3, h4, h5, h6⟩ :=
    formatTime_shape ms hms
  have hdata : (tsMarker ms).data
      = '[' :: a1 :: a2 :: ':' :: b1 :: b2 :: ':' :: c1 :: c2
        :: ']' :: ' ' :: [] := by
    show (("[" ++ formatTime ms ++ "] ") : String).data = _
    rw [String.data_append, String.data_append, hft]
    rfl
  rw [hdata]
  show (matchTsCore (a1 :: a2 :: ':' :: b1 :: b2 :: ':' :: c1 :: c2
      :: ']' :: ' ' :: post)).map _ = some post
  rw [show matchTsCore (a1 :: a2 :: ':' :: b1 :: b2 :: ':' :: c1 :: c2
      :: ']' :: ' ' :: post) = some (']' :: ' ' :: post) from by
    unfold matchTsCore
    dsimp only
    rw [if_pos ⟨h1, h2, rfl, h3, h4, rfl, h5, h6⟩]]
  show some ((' ' :: post).dropWhile isJsSpace) = some post
  rw [show (' ' :: post).dropWhile isJsSpace = post.dropWhile isJsSpace from by
    simp [List.dropWhile, isJsSpace]]
  rw [dropWhile_eq_self_of_head post hpost]

/-- C10 (amended): the inline marker of the Quill variant is matched in
full by the exporter's pattern: for every time below 100 hours,
`removeTimestamps` erases `[HH:MM:SS] ` from the front of the text, also
consuming any further whitespace right after it (here excluded by the
hypothesis on `post`), and continues on the remainder exactly as it would
have run on `post` alone.  Characters outside the marker survive only if
they do not themselves match the pattern — see the counterexample. -/
theorem removeTimestamps_marker (ms : Nat) (hms : ms < 360000000)
    (post : String)
    (hpost : post.data.head?.all (fun c => !isJsSpace c) = true) :
    removeTimestamps (tsMarker ms ++ post) = removeTimestamps post := by
  unfold removeTimestamps
  rw [String.data_append]
  have hm := matchTs_marker ms hms post.data hpost
  obtain ⟨c, rest, hcr⟩ :
      ∃ c rest, (tsMarker ms).data ++ post.data = c :: rest := by
    cases hx : (tsMarker ms).data ++ post.data with
    | nil =>
      rw [hx] at hm
      exact absurd hm (by simp [matchTs, matchTsCore])
    | cons c rest => exact ⟨c, rest, rfl⟩
  rw [hcr] at hm ⊢
  rw [List.length_cons]
  show String.mk (removeTsAux (rest.length + 1) (c :: rest)) = _
  rw [show removeTsAux (rest.length + 1) (c :: rest)
      = match matchTs (c :: rest) with
        | some rest2 => removeTsAux rest.length rest2
        | none => c :: removeTsAux rest.length rest from rfl]
  rw [hm]
  dsimp only
  have hlen : post.data.length ≤ rest.length := by
    have := matchTs_length (c :: rest) post.data hm
    rw [List.length_cons] at this
    omega
  rw [removeTsAux_congr post.data.length post.data rest.length post.data.length
    (Nat.le_refl _) hlen (Nat.le_refl _)]

/-- C10 witness: the marker for 1 h 2 min 3 s is erased in front of
`"abc"`, which is itself left untouched. -/
theorem removeTimestamps_marker_witness :
    (3723000 : Nat) < 360000000 ∧
    ("abc" : String).data.head?.all (fun c => !isJsSpace c) = true ∧
    removeTimestamps (tsMarker 3723000 ++ "abc") = removeTimestamps "abc" ∧
    removeTimestamps "abc" = "abc" :=
  ⟨by decide, by decide,
    removeTimestamps_marker 3723000 (by decide) "abc" (by decide), by decide⟩

/-- C10 counterexample: in a text holding the marker for time 0 plus the
time-like body text `11:22:33`, `removeTimestamps` strips the body text
too: the result is `"xy"` instead of the `"11:22:33xy"` the claim
requires (marker removed, every other character unchanged). -/
theorem removeTimestamps_strips_time_like_text :
    removeTimestamps ("11:22:33x" ++ tsMarker 0 ++ "y") = "xy" ∧
    ("xy" : String) ≠ "11:22:33x" ++ "y" := by
  refine ⟨by decide, by decide⟩

end LiveMeetingNote
